import Mathlib

/-!
Shallow embedding of `src/lector_obj/src/main.rs` (an OBJ mesh loader and
software triangle rasterizer) and verification of its specification claims.

Modelling conventions:
* Rust `f32` values are modelled as exact rationals `ℚ`; the numeric literal
  parser accepts finite decimal literals with optional exponent (the special
  forms `inf`/`NaN` have no rational counterpart and are out of scope).
* Rust strings are modelled as `List Char`; a file is a `List (List Char)`
  of its lines (the `BufReader::lines` boundary).
* Fallible code returns `Option` / `Except`.  The `format!` error strings of
  `load_obj` are modelled by the structured type `ParseErr`: each constructor
  corresponds to one format string of the source, and the `ℕ` argument is the
  interpolated 1-based line number (`lineno + 1` in the source).
-/

/-- Model of Rust `struct Vec3(pub f32, pub f32, pub f32)`. -/
structure Vec3 where
  x : ℚ
  y : ℚ
  z : ℚ
  deriving Repr, DecidableEq

/-- Model of Rust `struct Vec2(pub f32, pub f32)`. -/
structure Vec2 where
  x : ℚ
  y : ℚ
  deriving Repr, DecidableEq

/-- Model of Rust `struct Mesh`. -/
structure Mesh where
  positions : List Vec3
  texcoords : List Vec2
  normals   : List Vec3
  indices   : List (ℕ × Option ℕ × Option ℕ)
  deriving Repr, DecidableEq

/-- `Mesh::new()`. -/
def Mesh.new : Mesh := ⟨[], [], [], []⟩

/-- Leading/trailing-whitespace trim, model of `str::trim`. -/
def trimChars (l : List Char) : List Char :=
  ((l.dropWhile Char.isWhitespace).reverse.dropWhile Char.isWhitespace).reverse

/-- Accumulator loop for `splitWs`; `acc` holds the current word reversed. -/
def splitWsAux : List Char → List Char → List (List Char)
  | [], acc => if acc = [] then [] else [acc.reverse]
  | c :: cs, acc =>
    if c.isWhitespace then
      if acc = [] then splitWsAux cs [] else acc.reverse :: splitWsAux cs []
    else splitWsAux cs (c :: acc)

/-- Model of `str::split_whitespace`: whitespace-separated words, empties dropped. -/
def splitWs (l : List Char) : List (List Char) := splitWsAux l []

/-- Model of `str::split(sep)`: split at every separator, keeping empty pieces. -/
def splitOnChar (sep : Char) : List Char → List (List Char)
  | [] => [[]]
  | c :: cs =>
    if c = sep then [] :: splitOnChar sep cs
    else
      match splitOnChar sep cs with
      | [] => [[c]]
      | w :: ws => (c :: w) :: ws

/-- Numeric value of a digit string (most significant first). -/
def digitsVal (cs : List Char) : ℕ :=
  cs.foldl (fun a c => a * 10 + (c.toNat - 48)) 0

/-- Model of `str::parse::<i32>()`: optional sign, nonempty digit run,
value required to fit in a 32-bit signed integer. -/
def parseI32 (s : List Char) : Option ℤ :=
  let sr : ℤ × List Char :=
    match s with
    | '-' :: t => (-1, t)
    | '+' :: t => (1, t)
    | t => (1, t)
  if sr.2 = [] ∨ ¬ sr.2.all Char.isDigit then none
  else
    let v : ℤ := sr.1 * digitsVal sr.2
    if v < -(2 ^ 31) ∨ 2 ^ 31 - 1 < v then none else some v

/-- Exponent part of a float literal: optional sign, nonempty digit run. -/
def parseExp (r : List Char) : Option ℤ :=
  let sr : ℤ × List Char :=
    match r with
    | '-' :: t => (-1, t)
    | '+' :: t => (1, t)
    | t => (1, t)
  if sr.2 = [] ∨ ¬ sr.2.all Char.isDigit then none
  else some (sr.1 * digitsVal sr.2)

/-- Model of `str::parse::<f32>()` on finite decimal literals, with exact
rational semantics: optional sign, digits with optional fractional part
(at least one digit overall), optional `e`/`E` exponent. -/
def parseF32 (s : List Char) : Option ℚ :=
  let sr : ℚ × List Char :=
    match s with
    | '-' :: t => (-1, t)
    | '+' :: t => (1, t)
    | t => (1, t)
  let ip := sr.2.takeWhile Char.isDigit
  let r1 := sr.2.dropWhile Char.isDigit
  let fr : List Char × List Char :=
    match r1 with
    | '.' :: t => (t.takeWhile Char.isDigit, t.dropWhile Char.isDigit)
    | t => ([], t)
  if ip = [] ∧ fr.1 = [] then none
  else
    let mant : ℚ := (digitsVal ip : ℚ) + (digitsVal fr.1 : ℚ) / ((10 : ℚ) ^ fr.1.length)
    match fr.2 with
    | [] => some (sr.1 * mant)
    | 'e' :: t => (parseExp t).map (fun e => sr.1 * mant * (10 : ℚ) ^ e)
    | 'E' :: t => (parseExp t).map (fun e => sr.1 * mant * (10 : ℚ) ^ e)
    | _ => none

/-- Model of `resolve_idx`: converts a 1-based OBJ index (negatives counted
from the end) to a 0-based index into a list of length `len`. -/
def resolve_idx (obj_idx : ℤ) (len : ℕ) : Option ℕ :=
  if len = 0 then none
  else
    let idx0 : ℤ := if 0 < obj_idx then obj_idx - 1 else (len : ℤ) + obj_idx
    if idx0 < 0 ∨ (len : ℤ) ≤ idx0 then none
    else some idx0.toNat

/-- The optional-component step of `parse_face_vertex` for slot `k` (1 for
`vt`, 2 for `vn`): if the slot exists and is nonempty, a parse failure is
fatal (`none`), while the `Option` produced by `resolve_idx` is stored
directly (an unresolvable index becomes the stored value `none`); an absent
or empty slot stores `none`. -/
def slashComp (parts : List (List Char)) (k : ℕ) (len : ℕ) : Option (Option ℕ) :=
  if k + 1 ≤ parts.length ∧ parts.getD k [] ≠ [] then
    match parseI32 (parts.getD k []) with
    | none => none
    | some n => some (resolve_idx n len)
  else some none

/-- Model of `parse_face_vertex`: parses one face-vertex token of the forms
`v`, `v/vt`, `v//vn`, `v/vt/vn`.  Exactly as in the source, only the `v`
component's resolution failure is propagated with `?`; the `vt`/`vn` slots
go through `slashComp`. -/
def parse_face_vertex (token : List Char) (vlen vtlen vnlen : ℕ) :
    Option (ℕ × Option ℕ × Option ℕ) :=
  let parts := splitOnChar '/' token
  match parts.get? 0 with
  | none => none
  | some s0 =>
    match parseI32 s0 with
    | none => none
    | some n0 =>
      match resolve_idx n0 vlen with
      | none => none
      | some v =>
        match slashComp parts 1 vtlen with
        | none => none
        | some vt =>
          match slashComp parts 2 vnlen with
          | none => none
          | some vn => some (v, vt, vn)

/-- Inner loop of `triangulate_fan`: emits `(p0, prev, x)` for each successive
`x`, advancing `prev`. -/
def fanFrom (p0 prev : α) : List α → List (α × α × α)
  | [] => []
  | x :: xs => (p0, prev, x) :: fanFrom p0 x xs

/-- Model of `triangulate_fan`: for `i` in `2..len` emit `(poly[0], poly[i-1], poly[i])`. -/
def triangulate_fan : List α → List (α × α × α)
  | p0 :: p1 :: rest => fanFrom p0 p1 rest
  | _ => []

/-- The three entries one triangle contributes to `Mesh.indices`. -/
def triToList (t : α × α × α) : List α := [t.1, t.2.1, t.2.2]

/-- The per-face loop of `load_obj`'s `"f"` arm: parses every face-vertex
token against the current list lengths, failing if any token fails. -/
def parseFacePoly (vlen vtlen vnlen : ℕ) :
    List (List Char) → Option (List (ℕ × Option ℕ × Option ℕ))
  | [] => some []
  | t :: ts =>
    match parse_face_vertex t vlen vtlen vnlen with
    | none => none
    | some p =>
      match parseFacePoly vlen vtlen vnlen ts with
      | none => none
      | some ps => some (p :: ps)

/-- Structured model of the `format!` parse-error strings of `load_obj`.
Each constructor stands for one format string; the `ℕ` field is the 1-based
line number interpolated into the message (`lineno + 1` in the source), and
for the per-coordinate errors the second field records which coordinate
(0 for `.x`/`.u`, 1 for `.y`/`.v`, 2 for `.z`). -/
inductive ParseErr where
  | vTooFew (line : ℕ)
  | vBadNum (line : ℕ) (coord : ℕ)
  | vtTooFew (line : ℕ)
  | vtBadNum (line : ℕ) (coord : ℕ)
  | vnTooFew (line : ℕ)
  | vnBadNum (line : ℕ) (coord : ℕ)
  | fTooFew (line : ℕ)
  | fBadIndex (line : ℕ)
  deriving Repr, DecidableEq

/-- The 1-based line number carried by (interpolated into) a parse error. -/
def ParseErr.line : ParseErr → ℕ
  | .vTooFew n => n
  | .vBadNum n _ => n
  | .vtTooFew n => n
  | .vtBadNum n _ => n
  | .vnTooFew n => n
  | .vnBadNum n _ => n
  | .fTooFew n => n
  | .fBadIndex n => n

/-- The `"v"` arm of `load_obj`: three floats required, appended to positions. -/
def handleV (m : Mesh) (lineno : ℕ) (xs : List (List Char)) : Except ParseErr Mesh :=
  if xs.length < 3 then .error (.vTooFew (lineno + 1))
  else
    match parseF32 (xs.getD 0 []) with
    | none => .error (.vBadNum (lineno + 1) 0)
    | some x =>
      match parseF32 (xs.getD 1 []) with
      | none => .error (.vBadNum (lineno + 1) 1)
      | some y =>
        match parseF32 (xs.getD 2 []) with
        | none => .error (.vBadNum (lineno + 1) 2)
        | some z => .ok { m with positions := m.positions ++ [⟨x, y, z⟩] }

/-- The `"vt"` arm of `load_obj`: two floats required (a third field is
ignored), appended to texcoords. -/
def handleVT (m : Mesh) (lineno : ℕ) (xs : List (List Char)) : Except ParseErr Mesh :=
  if xs.length < 2 then .error (.vtTooFew (lineno + 1))
  else
    match parseF32 (xs.getD 0 []) with
    | none => .error (.vtBadNum (lineno + 1) 0)
    | some u =>
      match parseF32 (xs.getD 1 []) with
      | none => .error (.vtBadNum (lineno + 1) 1)
      | some v => .ok { m with texcoords := m.texcoords ++ [⟨u, v⟩] }

/-- The `"vn"` arm of `load_obj`: three floats required, appended to normals. -/
def handleVN (m : Mesh) (lineno : ℕ) (xs : List (List Char)) : Except ParseErr Mesh :=
  if xs.length < 3 then .error (.vnTooFew (lineno + 1))
  else
    match parseF32 (xs.getD 0 []) with
    | none => .error (.vnBadNum (lineno + 1) 0)
    | some x =>
      match parseF32 (xs.getD 1 []) with
      | none => .error (.vnBadNum (lineno + 1) 1)
      | some y =>
        match parseF32 (xs.getD 2 []) with
        | none => .error (.vnBadNum (lineno + 1) 2)
        | some z => .ok { m with normals := m.normals ++ [⟨x, y, z⟩] }

/-- The `"f"` arm of `load_obj`: at least three face-vertex tokens, each
parsed against the current list lengths; the polygon is fan-triangulated and
each triangle's three entries are appended to `indices`. -/
def handleF (m : Mesh) (lineno : ℕ) (xs : List (List Char)) : Except ParseErr Mesh :=
  if xs.length < 3 then .error (.fTooFew (lineno + 1))
  else
    match parseFacePoly m.positions.length m.texcoords.length m.normals.length xs with
    | none => .error (.fBadIndex (lineno + 1))
    | some poly =>
      .ok { m with indices := m.indices ++ (triangulate_fan poly).flatMap triToList }

/-- One iteration of `load_obj`'s line loop: trim, skip blanks and `#`
comments, dispatch on the first whitespace-separated token. -/
def processLine (m : Mesh) (lineno : ℕ) (raw : List Char) : Except ParseErr Mesh :=
  let line := trimChars raw
  if line = [] ∨ line.head? = some '#' then .ok m
  else
    let toks := splitWs line
    let tag := toks.headD []
    let xs := toks.tail
    if tag = ['v'] then handleV m lineno xs
    else if tag = ['v', 't'] then handleVT m lineno xs
    else if tag = ['v', 'n'] then handleVN m lineno xs
    else if tag = ['f'] then handleF m lineno xs
    else .ok m

/-- The enumerated line loop of `load_obj`. -/
def loadLoop (m : Mesh) (lineno : ℕ) : List (List Char) → Except ParseErr Mesh
  | [] => .ok m
  | l :: rest =>
    match processLine m lineno l with
    | .error e => .error e
    | .ok m2 => loadLoop m2 (lineno + 1) rest

/-- Model of `load_obj` from the `BufReader::lines` boundary on: the input is
the list of raw lines of the file. -/
def load_obj (lines : List (List Char)) : Except ParseErr Mesh :=
  loadLoop Mesh.new 0 lines

/-- The mesh produced by a successful load (junk mesh on error); used to name
concrete loaded meshes in closed statements. -/
def loadedMesh (lines : List (List Char)) : Mesh :=
  match load_obj lines with
  | .ok m => m
  | .error _ => Mesh.new

/-- Model of `struct Framebuffer`: width, height, and the flat RGB8 byte
plane `data` (3 bytes per pixel, row-major).  The source has no depth plane. -/
structure Framebuffer where
  w : ℕ
  h : ℕ
  data : List ℕ
  deriving Repr, DecidableEq

/-- Model of `Framebuffer::new`. -/
def Framebuffer.new (w h : ℕ) : Framebuffer :=
  ⟨w, h, List.replicate (w * h * 3) 0⟩

/-- Model of `Framebuffer::put_pixel`: bounds-checked unconditional write of
the three bytes of pixel `(x, y)`. -/
def Framebuffer.put_pixel (fb : Framebuffer) (x y : ℤ) (r g b : ℕ) : Framebuffer :=
  if x < 0 ∨ y < 0 then fb
  else
    let xn := x.toNat
    let yn := y.toNat
    if fb.w ≤ xn ∨ fb.h ≤ yn then fb
    else
      let idx := (yn * fb.w + xn) * 3
      { fb with data := ((fb.data.set idx r).set (idx + 1) g).set (idx + 2) b }

/-- Model of `Framebuffer::clear`: every 3-byte pixel chunk is set to
`(r, g, b)`; the source has no depth plane to reset. -/
def Framebuffer.clear (fb : Framebuffer) (r g b : ℕ) : Framebuffer :=
  { fb with
    data := fb.data.mapIdx (fun i _ => if i % 3 = 0 then r else if i % 3 = 1 then g else b) }

/-- Observer: the `(r, g, b)` bytes stored for pixel `(x, y)`. -/
def Framebuffer.getPixel (fb : Framebuffer) (x y : ℕ) : ℕ × ℕ × ℕ :=
  let idx := (y * fb.w + x) * 3
  (fb.data.getD idx 0, fb.data.getD (idx + 1) 0, fb.data.getD (idx + 2) 0)

/-- Model of the 2D `edge` function. -/
def edge (aX aY bX bY pX pY : ℚ) : ℚ :=
  (pX - aX) * (bY - aY) - (pY - aY) * (bX - aX)

/-- The coverage test of `fill_triangle`'s inner loop: the three edge values
at the sample point must all be `≥ 0` with positive total area, or all `≤ 0`
with negative total area. -/
def inside_tri (x0 y0 x1 y1 x2 y2 pX pY : ℚ) : Bool :=
  let area := edge x0 y0 x1 y1 x2 y2
  let w0 := edge x1 y1 x2 y2 pX pY
  let w1 := edge x2 y2 x0 y0 pX pY
  let w2 := edge x0 y0 x1 y1 pX pY
  decide ((0 ≤ w0 ∧ 0 ≤ w1 ∧ 0 ≤ w2 ∧ 0 < area) ∨ (w0 ≤ 0 ∧ w1 ≤ 0 ∧ w2 ≤ 0 ∧ area < 0))

/-- The inclusive integer range `lo..=hi` (empty when `hi < lo`). -/
def intRange (lo hi : ℤ) : List ℤ :=
  (List.range (hi + 1 - lo).toNat).map (fun k : ℕ => lo + (k : ℤ))

/-- Row-major traversal order of the clipped bounding box: the nested
`for y { for x }` loops of `fill_triangle`. -/
def pixelsInBox (min_x max_x min_y max_y : ℤ) : List (ℤ × ℤ) :=
  (intRange min_y max_y).flatMap (fun y => (intRange min_x max_x).map (fun x => (x, y)))

/-- Model of `fill_triangle`: clipped integer bounding box, early return on
zero signed area, then the coverage test at every pixel center `(x+½, y+½)`
with an (unconditional) `put_pixel` on the covered ones. -/
def fill_triangle (fb : Framebuffer) (x0 y0 x1 y1 x2 y2 : ℚ) (r g b : ℕ) : Framebuffer :=
  let min_x : ℤ := max ⌊min (min x0 x1) x2⌋ 0
  let max_x : ℤ := min ⌈max (max x0 x1) x2⌉ ((fb.w : ℤ) - 1)
  let min_y : ℤ := max ⌊min (min y0 y1) y2⌋ 0
  let max_y : ℤ := min ⌈max (max y0 y1) y2⌉ ((fb.h : ℤ) - 1)
  let area := edge x0 y0 x1 y1 x2 y2
  if area = 0 then fb
  else
    (pixelsInBox min_x max_x min_y max_y).foldl
      (fun acc p =>
        if inside_tri x0 y0 x1 y1 x2 y2 ((p.1 : ℚ) + 1 / 2) ((p.2 : ℚ) + 1 / 2)
        then acc.put_pixel p.1 p.2 r g b
        else acc)
      fb

/-- The spec's Mesh invariant: `indices.len()` is a multiple of 3, every
first (position) index is in range, and every present second/third
(texcoord/normal) index is in range. -/
def MeshInv (m : Mesh) : Prop :=
  m.indices.length % 3 = 0 ∧
  ∀ t ∈ m.indices, t.1 < m.positions.length ∧
    (∀ j ∈ t.2.1, j < m.texcoords.length) ∧
    (∀ j ∈ t.2.2, j < m.normals.length)

/-- A small concrete frame buffer used in closed statements. -/
def fbSmall : Framebuffer := Framebuffer.new 4 4

/-- The spec's minimal round-trip file. -/
def linesMin : List (List Char) :=
  [String.toList "v 0 0 0", String.toList "v 1 0 0",
   String.toList "v 0 1 0", String.toList "f 1 2 3"]

/-- A file whose face references texcoord index 5 against a single-element
texcoord list (out of range). -/
def linesVtOut : List (List Char) :=
  [String.toList "v 0 0 0", String.toList "v 1 0 0", String.toList "v 0 1 0",
   String.toList "vt 0 0", String.toList "f 1/5 2/5 3/5"]

/-! ## Helper lemmas about index resolution and face parsing -/

theorem resolve_idx_lt {n : ℤ} {len j : ℕ} (h : resolve_idx n len = some j) : j < len := by
  simp only [resolve_idx] at h
  by_cases h0 : len = 0
  · simp [h0] at h
  · rw [if_neg h0] at h
    by_cases h1 : 0 < n
    · rw [if_pos h1] at h
      by_cases h2 : n - 1 < 0 ∨ (len : ℤ) ≤ n - 1
      · simp [if_pos h2] at h
        omega
      · rw [if_neg h2] at h
        simp only [Option.some.injEq] at h
        push_neg at h2
        omega
    · rw [if_neg h1] at h
      by_cases h2 : (len : ℤ) + n < 0 ∨ (len : ℤ) ≤ (len : ℤ) + n
      · simp [if_pos h2] at h
        omega
      · rw [if_neg h2] at h
        simp only [Option.some.injEq] at h
        push_neg at h2
        omega

theorem slashComp_bound {parts : List (List Char)} {k len : ℕ} {o : Option ℕ}
    (h : slashComp parts k len = some o) : ∀ j ∈ o, j < len := by
  simp only [slashComp] at h
  split at h
  · split at h
    · simp at h
    · simp only [Option.some.injEq] at h
      subst h
      intro j hj
      exact resolve_idx_lt (Option.mem_def.mp hj)
  · simp only [Option.some.injEq] at h
    subst h
    simp

theorem parse_face_vertex_bounds {t : List Char} {vlen vtlen vnlen : ℕ}
    {p : ℕ × Option ℕ × Option ℕ}
    (h : parse_face_vertex t vlen vtlen vnlen = some p) :
    p.1 < vlen ∧ (∀ j ∈ p.2.1, j < vtlen) ∧ (∀ j ∈ p.2.2, j < vnlen) := by
  simp only [parse_face_vertex] at h
  split at h
  · simp at h
  · split at h
    · simp at h
    · split at h
      · simp at h
      · rename_i v hv
        split at h
        · simp at h
        · rename_i vt hvt
          split at h
          · simp at h
          · rename_i vn hvn
            simp only [Option.some.injEq] at h
            subst h
            exact ⟨resolve_idx_lt hv, slashComp_bound hvt, slashComp_bound hvn⟩

theorem parseFacePoly_mem {vlen vtlen vnlen : ℕ} {toks : List (List Char)}
    {poly : List (ℕ × Option ℕ × Option ℕ)}
    (h : parseFacePoly vlen vtlen vnlen toks = some poly) :
    ∀ p ∈ poly, ∃ t ∈ toks, parse_face_vertex t vlen vtlen vnlen = some p := by
  induction toks generalizing poly with
  | nil =>
    simp only [parseFacePoly, Option.some.injEq] at h
    subst h
    simp
  | cons t ts ih =>
    simp only [parseFacePoly] at h
    split at h
    · simp at h
    · rename_i q hq
      split at h
      · simp at h
      · rename_i ps hps
        simp only [Option.some.injEq] at h
        subst h
        intro p hp
        rcases List.mem_cons.mp hp with rfl | hp
        · exact ⟨t, List.mem_cons_self t ts, hq⟩
        · obtain ⟨u, hu, hparse⟩ := ih hps p hp
          exact ⟨u, List.mem_cons_of_mem t hu, hparse⟩

theorem parseFacePoly_length {vlen vtlen vnlen : ℕ} {toks : List (List Char)}
    {poly : List (ℕ × Option ℕ × Option ℕ)}
    (h : parseFacePoly vlen vtlen vnlen toks = some poly) :
    poly.length = toks.length := by
  induction toks generalizing poly with
  | nil =>
    simp only [parseFacePoly, Option.some.injEq] at h
    subst h
    rfl
  | cons t ts ih =>
    simp only [parseFacePoly] at h
    split at h
    · simp at h
    · split at h
      · simp at h
      · rename_i ps hps
        simp only [Option.some.injEq] at h
        subst h
        simp [ih hps]

/-! ## Helper lemmas about fan triangulation -/

theorem fanFrom_length (p0 prev : α) (xs : List α) :
    (fanFrom p0 prev xs).length = xs.length := by
  induction xs generalizing prev with
  | nil => rfl
  | cons x xs ih => simp [fanFrom, ih]

theorem fanFrom_getD (p0 prev : α) (xs : List α) (d : α) :
    ∀ k, k < xs.length →
      (fanFrom p0 prev xs).getD k (d, d, d) = (p0, (prev :: xs).getD k d, xs.getD k d) := by
  induction xs generalizing prev with
  | nil => intro k hk; simp at hk
  | cons x xs ih =>
    intro k hk
    cases k with
    | zero => simp [fanFrom]
    | succ k =>
      simp only [fanFrom, List.getD_cons_succ]
      exact ih x k (by simpa using hk)

theorem fanFrom_mem {p0 prev : α} {xs : List α} {t : α × α × α}
    (h : t ∈ fanFrom p0 prev xs) : t.1 = p0 ∧ t.2.1 ∈ prev :: xs ∧ t.2.2 ∈ xs := by
  induction xs generalizing prev with
  | nil => simp [fanFrom] at h
  | cons x xs ih =>
    simp only [fanFrom, List.mem_cons] at h
    rcases h with rfl | h
    · exact ⟨rfl, List.mem_cons_self prev _, List.mem_cons_self x xs⟩
    · obtain ⟨h1, h2, h3⟩ := ih h
      exact ⟨h1, List.mem_cons_of_mem prev h2, List.mem_cons_of_mem x h3⟩

theorem triangulate_fan_mem {poly : List α} {t : α × α × α}
    (h : t ∈ triangulate_fan poly) : t.1 ∈ poly ∧ t.2.1 ∈ poly ∧ t.2.2 ∈ poly := by
  match poly with
  | [] => simp [triangulate_fan] at h
  | [p] => simp [triangulate_fan] at h
  | p0 :: p1 :: rest =>
    obtain ⟨h1, h2, h3⟩ := fanFrom_mem (h : t ∈ fanFrom p0 p1 rest)
    refine ⟨?_, ?_, ?_⟩
    · rw [h1]; exact List.mem_cons_self p0 _
    · exact List.mem_cons_of_mem p0 h2
    · exact List.mem_cons_of_mem p0 (List.mem_cons_of_mem p1 h3)

theorem triangulate_fan_length (poly : List α) :
    (triangulate_fan poly).length = poly.length - 2 := by
  match poly with
  | [] => rfl
  | [p] => rfl
  | p0 :: p1 :: rest => simp [triangulate_fan, fanFrom_length]

theorem flatMap_triToList_length (l : List (α × α × α)) :
    (l.flatMap triToList).length = 3 * l.length := by
  induction l with
  | nil => rfl
  | cons t ts ih =>
    simp only [List.flatMap_cons, List.length_append, ih, triToList, List.length_cons,
      List.length_nil, List.length_cons]
    omega

/-! ## Helper lemmas about the frame buffer -/

theorem put_pixel_w (fb : Framebuffer) (x y : ℤ) (r g b : ℕ) :
    (fb.put_pixel x y r g b).w = fb.w := by
  simp only [Framebuffer.put_pixel]
  split
  · rfl
  · split
    · rfl
    · rfl

theorem put_pixel_h (fb : Framebuffer) (x y : ℤ) (r g b : ℕ) :
    (fb.put_pixel x y r g b).h = fb.h := by
  simp only [Framebuffer.put_pixel]
  split
  · rfl
  · split
    · rfl
    · rfl

theorem put_pixel_data_length (fb : Framebuffer) (x y : ℤ) (r g b : ℕ) :
    (fb.put_pixel x y r g b).data.length = fb.data.length := by
  simp only [Framebuffer.put_pixel]
  split
  · rfl
  · split
    · rfl
    · simp [List.length_set]

theorem rowcol_inj {w a b a2 b2 : ℕ} (hb : b < w) (hb2 : b2 < w)
    (h : a * w + b = a2 * w + b2) : a = a2 ∧ b = b2 := by
  have hw : 0 < w := Nat.lt_of_le_of_lt (Nat.zero_le _) hb
  have h1 : (a * w + b) % w = b := by
    rw [Nat.mul_comm, Nat.mul_add_mod]
    exact Nat.mod_eq_of_lt hb
  have h2 : (a2 * w + b2) % w = b2 := by
    rw [Nat.mul_comm, Nat.mul_add_mod]
    exact Nat.mod_eq_of_lt hb2
  have hbb : b = b2 := by rw [← h1, ← h2, h]
  refine ⟨?_, hbb⟩
  have h3 : a * w = a2 * w := by omega
  exact Nat.eq_of_mul_eq_mul_right hw h3

theorem pixel_index_lt {w h xn yn : ℕ} (hx : xn < w) (hy : yn < h) :
    (yn * w + xn) * 3 + 2 < w * h * 3 := by
  have h1 : yn * w + xn < h * w := by
    calc yn * w + xn < yn * w + w := by omega
      _ = (yn + 1) * w := by ring
      _ ≤ h * w := Nat.mul_le_mul_right _ (by omega)
  have h2 : h * w * 3 = w * h * 3 := by ring
  rw [← h2]
  linarith

theorem getPixel_put_pixel_self {fb : Framebuffer} {x y : ℤ} (r g b : ℕ)
    (hlen : fb.data.length = fb.w * fb.h * 3)
    (hx0 : 0 ≤ x) (hy0 : 0 ≤ y) (hxw : x < (fb.w : ℤ)) (hyh : y < (fb.h : ℤ)) :
    (fb.put_pixel x y r g b).getPixel x.toNat y.toNat = (r, g, b) := by
  have hx : x.toNat < fb.w := by omega
  have hy : y.toNat < fb.h := by omega
  have hidx : (y.toNat * fb.w + x.toNat) * 3 + 2 < fb.data.length := by
    rw [hlen]; exact pixel_index_lt hx hy
  simp only [Framebuffer.put_pixel]
  rw [if_neg (by omega : ¬(x < 0 ∨ y < 0))]
  rw [if_neg (by omega : ¬(fb.w ≤ x.toNat ∨ fb.h ≤ y.toNat))]
  simp only [Framebuffer.getPixel, Prod.mk.injEq]
  refine ⟨?_, ?_, ?_⟩
  · rw [List.getD_eq_getElem?_getD,
      List.getElem?_set_ne (show (y.toNat * fb.w + x.toNat) * 3 + 2 ≠ (y.toNat * fb.w + x.toNat) * 3 by omega),
      List.getElem?_set_ne (show (y.toNat * fb.w + x.toNat) * 3 + 1 ≠ (y.toNat * fb.w + x.toNat) * 3 by omega),
      List.getElem?_set_self (by omega)]
    rfl
  · rw [List.getD_eq_getElem?_getD,
      List.getElem?_set_ne (show (y.toNat * fb.w + x.toNat) * 3 + 2 ≠ (y.toNat * fb.w + x.toNat) * 3 + 1 by omega),
      List.getElem?_set_self (by rw [List.length_set]; omega)]
    rfl
  · rw [List.getD_eq_getElem?_getD,
      List.getElem?_set_self (by rw [List.length_set, List.length_set]; omega)]
    rfl

theorem getPixel_put_pixel_ne {fb : Framebuffer} {x y : ℤ} (r g b : ℕ) {px py : ℕ}
    (hpx : px < fb.w)
    (hne : ¬(x = (px : ℤ) ∧ y = (py : ℤ))) :
    (fb.put_pixel x y r g b).getPixel px py = fb.getPixel px py := by
  simp only [Framebuffer.put_pixel]
  split
  · rfl
  · split
    · rfl
    · rename_i h1 h2
      push_neg at h1 h2
      have hxw : x.toNat < fb.w := h2.1
      have hyh : y.toNat < fb.h := h2.2
      have hrc : y.toNat * fb.w + x.toNat ≠ py * fb.w + px := by
        intro hEq
        obtain ⟨ha, hb⟩ := rowcol_inj hxw hpx hEq
        exact hne ⟨by omega, by omega⟩
      simp only [Framebuffer.getPixel, Prod.mk.injEq]
      refine ⟨?_, ?_, ?_⟩ <;>
        rw [List.getD_eq_getElem?_getD,
          List.getElem?_set_ne (by omega),
          List.getElem?_set_ne (by omega),
          List.getElem?_set_ne (by omega),
          ← List.getD_eq_getElem?_getD]

theorem intRange_mem {lo hi z : ℤ} : z ∈ intRange lo hi ↔ lo ≤ z ∧ z ≤ hi := by
  simp only [intRange, List.mem_map, List.mem_range]
  constructor
  · rintro ⟨k, hk, rfl⟩
    omega
  · intro h
    exact ⟨(z - lo).toNat, by omega, by omega⟩

theorem pixelsInBox_mem {min_x max_x min_y max_y x y : ℤ} :
    (x, y) ∈ pixelsInBox min_x max_x min_y max_y ↔
      (min_x ≤ x ∧ x ≤ max_x) ∧ (min_y ≤ y ∧ y ≤ max_y) := by
  simp only [pixelsInBox, List.mem_flatMap, List.mem_map, Prod.mk.injEq]
  constructor
  · rintro ⟨y2, hy2, x2, hx2, rfl, rfl⟩
    exact ⟨intRange_mem.mp hx2, intRange_mem.mp hy2⟩
  · rintro ⟨⟨hx1, hx2⟩, hy1, hy2⟩
    exact ⟨y, intRange_mem.mpr ⟨hy1, hy2⟩, x, intRange_mem.mpr ⟨hx1, hx2⟩, rfl, rfl⟩

theorem foldl_cond_put_getPixel (cond : ℤ × ℤ → Bool) (r g b : ℕ) (px py : ℕ)
    (L : List (ℤ × ℤ)) :
    ∀ fb : Framebuffer, fb.data.length = fb.w * fb.h * 3 → px < fb.w → py < fb.h →
      (L.foldl (fun acc p => if cond p then acc.put_pixel p.1 p.2 r g b else acc) fb).getPixel px py
        = if ((px : ℤ), (py : ℤ)) ∈ L ∧ cond ((px : ℤ), (py : ℤ)) = true then (r, g, b)
          else fb.getPixel px py := by
  induction L with
  | nil =>
    intro fb hlen hw hh
    simp
  | cons p L ih =>
    intro fb hlen hw hh
    simp only [List.foldl_cons]
    set fb2 := if cond p = true then fb.put_pixel p.1 p.2 r g b else fb with hfb2
    have hw2 : fb2.w = fb.w := by
      rw [hfb2]; split
      · exact put_pixel_w fb p.1 p.2 r g b
      · rfl
    have hh2 : fb2.h = fb.h := by
      rw [hfb2]; split
      · exact put_pixel_h fb p.1 p.2 r g b
      · rfl
    have hlen2 : fb2.data.length = fb2.w * fb2.h * 3 := by
      rw [hw2, hh2, hfb2]; split
      · rw [put_pixel_data_length]; exact hlen
      · exact hlen
    rw [ih fb2 hlen2 (by rw [hw2]; exact hw) (by rw [hh2]; exact hh)]
    by_cases hm : ((px : ℤ), (py : ℤ)) ∈ L ∧ cond ((px : ℤ), (py : ℤ)) = true
    · rw [if_pos hm, if_pos ⟨List.mem_cons_of_mem p hm.1, hm.2⟩]
    · rw [if_neg hm]
      by_cases hp : p = ((px : ℤ), (py : ℤ)) ∧ cond ((px : ℤ), (py : ℤ)) = true
      · have hcondp : cond p = true := by rw [hp.1]; exact hp.2
        have hself : fb2.getPixel px py = (r, g, b) := by
          rw [hfb2, if_pos hcondp, hp.1]
          have h5 := @getPixel_put_pixel_self fb (px : ℤ) (py : ℤ) r g b
            hlen (Int.natCast_nonneg px) (Int.natCast_nonneg py)
            (by exact_mod_cast hw) (by exact_mod_cast hh)
          simpa using h5
        rw [hself, if_pos ⟨List.mem_cons.mpr (Or.inl hp.1.symm), hp.2⟩]
      · have hunch : fb2.getPixel px py = fb.getPixel px py := by
          rw [hfb2]
          split
          · rename_i hcondp
            apply getPixel_put_pixel_ne r g b hw
            rintro ⟨he1, he2⟩
            have hpq : p = ((px : ℤ), (py : ℤ)) := Prod.ext_iff.mpr ⟨he1, he2⟩
            exact hp ⟨hpq, hpq ▸ hcondp⟩
          · rfl
        rw [hunch, if_neg]
        rintro ⟨hmem, hc⟩
        rcases List.mem_cons.mp hmem with he | he
        · exact hp ⟨he.symm, hc⟩
        · exact hm ⟨he, hc⟩

/-! ## Helper lemmas about the line loop of the loader -/

theorem handleV_inv {m m2 : Mesh} {k : ℕ} {xs : List (List Char)}
    (hm : MeshInv m) (h : handleV m k xs = .ok m2) : MeshInv m2 := by
  simp only [handleV] at h
  split at h
  · simp at h
  · split at h
    · simp at h
    · split at h
      · simp at h
      · split at h
        · simp at h
        · cases h
          obtain ⟨h1, h2⟩ := hm
          refine ⟨h1, ?_⟩
          intro t ht
          obtain ⟨ha, hb, hc⟩ := h2 t ht
          refine ⟨?_, hb, hc⟩
          simp only [List.length_append, List.length_cons, List.length_nil]
          omega

theorem handleVT_inv {m m2 : Mesh} {k : ℕ} {xs : List (List Char)}
    (hm : MeshInv m) (h : handleVT m k xs = .ok m2) : MeshInv m2 := by
  simp only [handleVT] at h
  split at h
  · simp at h
  · split at h
    · simp at h
    · split at h
      · simp at h
      · cases h
        obtain ⟨h1, h2⟩ := hm
        refine ⟨h1, ?_⟩
        intro t ht
        obtain ⟨ha, hb, hc⟩ := h2 t ht
        refine ⟨ha, ?_, hc⟩
        intro j hj
        have := hb j hj
        simp only [List.length_append, List.length_cons, List.length_nil]
        omega

theorem handleVN_inv {m m2 : Mesh} {k : ℕ} {xs : List (List Char)}
    (hm : MeshInv m) (h : handleVN m k xs = .ok m2) : MeshInv m2 := by
  simp only [handleVN] at h
  split at h
  · simp at h
  · split at h
    · simp at h
    · split at h
      · simp at h
      · split at h
        · simp at h
        · cases h
          obtain ⟨h1, h2⟩ := hm
          refine ⟨h1, ?_⟩
          intro t ht
          obtain ⟨ha, hb, hc⟩ := h2 t ht
          refine ⟨ha, hb, ?_⟩
          intro j hj
          have := hc j hj
          simp only [List.length_append, List.length_cons, List.length_nil]
          omega

theorem handleF_inv {m m2 : Mesh} {k : ℕ} {xs : List (List Char)}
    (hm : MeshInv m) (h : handleF m k xs = .ok m2) : MeshInv m2 := by
  simp only [handleF] at h
  split at h
  · simp at h
  · split at h
    · simp at h
    · rename_i poly hpoly
      cases h
      obtain ⟨h1, h2⟩ := hm
      constructor
      · simp only [List.length_append, flatMap_triToList_length]
        omega
      · intro t ht
        rcases List.mem_append.mp ht with hin | hin
        · exact h2 t hin
        · obtain ⟨tri, htri, hmem⟩ := List.mem_flatMap.mp hin
          obtain ⟨c1, c2, c3⟩ := triangulate_fan_mem htri
          have hpolymem : t ∈ poly := by
            simp only [triToList, List.mem_cons, List.not_mem_nil, or_false] at hmem
            rcases hmem with rfl | rfl | rfl
            · exact c1
            · exact c2
            · exact c3
          obtain ⟨tok, htok, hparse⟩ := parseFacePoly_mem hpoly t hpolymem
          exact parse_face_vertex_bounds hparse

theorem processLine_inv {m m2 : Mesh} {k : ℕ} {raw : List Char}
    (hm : MeshInv m) (h : processLine m k raw = .ok m2) : MeshInv m2 := by
  simp only [processLine] at h
  split at h
  · cases h; exact hm
  · split at h
    · exact handleV_inv hm h
    · split at h
      · exact handleVT_inv hm h
      · split at h
        · exact handleVN_inv hm h
        · split at h
          · exact handleF_inv hm h
          · cases h; exact hm

theorem loadLoop_inv {m m2 : Mesh} {k : ℕ} {ls : List (List Char)}
    (hm : MeshInv m) (h : loadLoop m k ls = .ok m2) : MeshInv m2 := by
  induction ls generalizing m k with
  | nil =>
    simp only [loadLoop] at h
    cases h
    exact hm
  | cons l ls ih =>
    simp only [loadLoop] at h
    split at h
    · simp at h
    · rename_i m3 hm3
      exact ih (processLine_inv hm hm3) h

theorem loadLoop_append_ok {m m2 : Mesh} {k : ℕ} {pre : List (List Char)}
    (h : loadLoop m k pre = .ok m2) (rest : List (List Char)) :
    loadLoop m k (pre ++ rest) = loadLoop m2 (k + pre.length) rest := by
  induction pre generalizing m k with
  | nil =>
    simp only [loadLoop] at h
    cases h
    simp
  | cons l pre ih =>
    simp only [loadLoop] at h
    simp only [List.cons_append, loadLoop]
    split at h
    · simp at h
    · rename_i m3 hm3
      rw [List.append_eq, ih h]
      congr 1
      simp only [List.length_cons]
      omega

/-! ## Claim theorems -/

/-- C4: `resolve_idx` maps a positive OBJ index `i` with `1 ≤ i ≤ count` to
the 0-based element `i - 1`, and a negative index `i` with `count + i` in
`[0, count)` to the element `count + i`. -/
theorem resolve_idx_spec (i : ℤ) (count : ℕ) (hc : 0 < count) :
    (0 < i → i ≤ (count : ℤ) → resolve_idx i count = some (i - 1).toNat) ∧
    (i < 0 → 0 ≤ (count : ℤ) + i → (count : ℤ) + i < (count : ℤ) →
      resolve_idx i count = some ((count : ℤ) + i).toNat) := by
  constructor
  · intro h1 h2
    simp only [resolve_idx]
    rw [if_neg (by omega : ¬count = 0), if_pos h1, if_neg (by omega)]
  · intro h1 h2 h3
    simp only [resolve_idx]
    rw [if_neg (by omega : ¬count = 0), if_neg (by omega : ¬0 < i), if_neg (by omega)]

/-- C4 witness: `-1` against a 3-element list resolves to 0-based index 2,
the same element as literal index `3`. -/
theorem resolve_idx_spec_witness :
    resolve_idx (-1) 3 = some 2 ∧ resolve_idx 3 3 = some 2 := by
  constructor
  · have h := (resolve_idx_spec (-1) 3 (by decide)).2 (by decide) (by decide) (by decide)
    rw [h]
    decide
  · have h := (resolve_idx_spec 3 3 (by decide)).1 (by decide) (by decide)
    rw [h]
    decide

/-- C5: for a polygon of `n ≥ 3` face-vertex entries, `triangulate_fan`
emits exactly the `n - 2` triangles `(p0, p_{i-1}, p_i)` for `i` in `2..n`,
in that order (triangle `k` is the one for `i = k + 2`). -/
theorem triangulate_fan_spec {α : Type} (poly : List α) (hn : 3 ≤ poly.length) :
    (triangulate_fan poly).length = poly.length - 2 ∧
    ∀ (d : α) (k : ℕ), k < poly.length - 2 →
      (triangulate_fan poly).getD k (d, d, d) =
        (poly.getD 0 d, poly.getD (k + 1) d, poly.getD (k + 2) d) := by
  match poly with
  | [] => simp at hn
  | [p] => simp at hn
  | p0 :: p1 :: rest =>
    refine ⟨triangulate_fan_length _, ?_⟩
    intro d k hk
    have hk2 : k < rest.length := by
      simp only [List.length_cons] at hk
      omega
    simp only [triangulate_fan]
    rw [fanFrom_getD p0 p1 rest d k hk2]
    rw [show k + 2 = (k + 1) + 1 from rfl]
    simp only [List.getD_cons_zero, List.getD_cons_succ]

/-- C5 witness: a quad `f 1 2 3 4` (0-based entries 0,1,2,3) fans into
exactly the two triangles `(0,1,2)` and `(0,2,3)`. -/
theorem triangulate_fan_spec_witness :
    (triangulate_fan ([0, 1, 2, 3] : List ℕ)).length = 2 ∧
    (triangulate_fan ([0, 1, 2, 3] : List ℕ)).getD 0 (0, 0, 0) = (0, 1, 2) ∧
    (triangulate_fan ([0, 1, 2, 3] : List ℕ)).getD 1 (0, 0, 0) = (0, 2, 3) := by
  have h := triangulate_fan_spec ([0, 1, 2, 3] : List ℕ) (by decide)
  refine ⟨by rw [h.1]; decide, ?_, ?_⟩
  · have h2 := h.2 0 0 (by decide)
    rw [h2]
    decide
  · have h2 := h.2 0 1 (by decide)
    rw [h2]
    decide

/-- C7: a triangle whose three screen-space vertices have zero signed area
(the `edge` of its vertices is 0) is skipped entirely: `fill_triangle`
returns the frame buffer unchanged. -/
theorem fill_triangle_degenerate (fb : Framebuffer) (x0 y0 x1 y1 x2 y2 : ℚ) (r g b : ℕ)
    (h : edge x0 y0 x1 y1 x2 y2 = 0) :
    fill_triangle fb x0 y0 x1 y1 x2 y2 r g b = fb := by
  simp only [fill_triangle]
  rw [if_pos h]

/-- C7 witness: the colinear triangle (0,0), (1,1), (2,2) writes nothing. -/
theorem fill_triangle_degenerate_witness :
    fill_triangle fbSmall 0 0 1 1 2 2 5 6 7 = fbSmall := by
  apply fill_triangle_degenerate
  norm_num [edge]

/-- C9: a pixel write at coordinates outside the buffer bounds (negative, or
at least the width/height) is a no-op: the frame buffer is returned
unchanged. -/
theorem put_pixel_out_of_bounds (fb : Framebuffer) (x y : ℤ) (r g b : ℕ)
    (h : x < 0 ∨ y < 0 ∨ (fb.w : ℤ) ≤ x ∨ (fb.h : ℤ) ≤ y) :
    fb.put_pixel x y r g b = fb := by
  simp only [Framebuffer.put_pixel]
  by_cases h1 : x < 0 ∨ y < 0
  · rw [if_pos h1]
  · rw [if_neg h1, if_pos (by push_neg at h1; omega)]

/-- C9 witness: writing at x = 7 on a 4-wide buffer changes nothing. -/
theorem put_pixel_out_of_bounds_witness :
    fbSmall.put_pixel 7 1 9 9 9 = fbSmall :=
  put_pixel_out_of_bounds fbSmall 7 1 9 9 9 (by decide)

/-- C1 counterexample: the source `Framebuffer` has no depth plane and its
pixel write takes no depth and is not depth-tested.  Mapping the claim's
scenario (write `C1`, then `C2`, then a third write which the claim says must
be rejected) onto the code's write, the pixel ends at the third color, not at
`C2` as the claim requires. -/
theorem put_pixel_depth_scenario_cex :
    ((((Framebuffer.new 2 2).put_pixel 0 0 10 20 30).put_pixel 0 0 40 50 60).put_pixel
        0 0 70 80 90).getPixel 0 0 = (70, 80, 90) ∧
      (70, 80, 90) ≠ ((40, 50, 60) : ℕ × ℕ × ℕ) := by
  decide

/-- C1 amended: the frame buffer's pixel write is unconditional — for any
in-bounds pixel it stores the new color regardless of previous contents
(last writer wins); there is no depth plane. -/
theorem put_pixel_overwrites (fb : Framebuffer) (x y : ℤ) (r g b : ℕ)
    (hlen : fb.data.length = fb.w * fb.h * 3)
    (hx0 : 0 ≤ x) (hy0 : 0 ≤ y) (hxw : x < (fb.w : ℤ)) (hyh : y < (fb.h : ℤ)) :
    (fb.put_pixel x y r g b).getPixel x.toNat y.toNat = (r, g, b) :=
  getPixel_put_pixel_self r g b hlen hx0 hy0 hxw hyh

/-- C1 amended witness: a second write to the same pixel replaces the color. -/
theorem put_pixel_overwrites_witness :
    (((Framebuffer.new 2 2).put_pixel 1 0 1 2 3).put_pixel 1 0 7 8 9).getPixel 1 0 = (7, 8, 9) := by
  have h := put_pixel_overwrites ((Framebuffer.new 2 2).put_pixel 1 0 1 2 3) 1 0 7 8 9
    (by decide) (by decide) (by decide) (by decide) (by decide)
  exact h

/-- C2 counterexample: in `linesVtOut` the face's `vt` index 5 resolves
outside `[0, 1)` of the one-element texcoord list, yet `load_obj` succeeds
and silently stores the texcoord slots as absent. -/
theorem load_obj_vt_out_of_range_accepted :
    load_obj linesVtOut = .ok (loadedMesh linesVtOut) ∧
    (loadedMesh linesVtOut).texcoords.length = 1 ∧
    (loadedMesh linesVtOut).indices =
      [(0, none, none), (1, none, none), (2, none, none)] :=
  ⟨rfl, rfl, rfl⟩

/-- C2 amended: only the `v` component's out-of-range resolution is fatal to
`parse_face_vertex` (hence to `load_obj`); an out-of-range `vt` (or `vn`)
component whose text parses as an integer is silently stored as absent and
the face-vertex is accepted.  Stated for a two-component token `s0/s1`. -/
theorem parse_face_vertex_out_of_range (t : List Char) (vlen vtlen vnlen : ℕ)
    (s0 s1 : List Char) (n0 n1 : ℤ)
    (hsplit : splitOnChar '/' t = [s0, s1])
    (h0 : parseI32 s0 = some n0)
    (h1 : parseI32 s1 = some n1) (hs1 : s1 ≠ [])
    (hvt : resolve_idx n1 vtlen = none) :
    (resolve_idx n0 vlen = none → parse_face_vertex t vlen vtlen vnlen = none) ∧
    (∀ v, resolve_idx n0 vlen = some v →
      parse_face_vertex t vlen vtlen vnlen = some (v, none, none)) := by
  constructor
  · intro hv
    simp [parse_face_vertex, slashComp, hsplit, h0, h1, hs1, hvt, hv]
  · intro v hv
    simp [parse_face_vertex, slashComp, hsplit, h0, h1, hs1, hvt, hv]

/-- C2 amended witness: token `1/5` with 3 positions and 1 texcoord parses to
position index 0 with the texcoord silently dropped. -/
theorem parse_face_vertex_out_of_range_witness :
    parse_face_vertex (String.toList "1/5") 3 1 0 = some (0, none, none) := by
  have h := (parse_face_vertex_out_of_range (String.toList "1/5") 3 1 0
    (String.toList "1") (String.toList "5") 1 5
    (by decide) (by decide) (by decide) (by decide) (by decide)).2 0 (by decide)
  exact h

/-- C3: every mesh successfully produced by `load_obj` satisfies the index
invariants: `indices.len()` is a multiple of 3, every first (position) index
is `< positions.len()`, and every present second/third index is
`< texcoords.len()` / `< normals.len()` respectively. -/
theorem load_obj_mesh_invariants (lines : List (List Char)) (m : Mesh)
    (h : load_obj lines = .ok m) : MeshInv m := by
  have hnew : MeshInv Mesh.new := by
    refine ⟨rfl, ?_⟩
    intro t ht
    simp [Mesh.new] at ht
  exact loadLoop_inv hnew h

/-- C3 witness: the spec's minimal file loads and its mesh satisfies the
invariants. -/
theorem load_obj_mesh_invariants_witness :
    load_obj linesMin = .ok (loadedMesh linesMin) ∧ MeshInv (loadedMesh linesMin) :=
  ⟨rfl, load_obj_mesh_invariants linesMin (loadedMesh linesMin) rfl⟩

/-- Dispatch helper: a non-blank, non-comment line whose first token is `v`
is handled by the `v` arm. -/
theorem processLine_v (m : Mesh) (k : ℕ) (raw : List Char) (xs : List (List Char))
    (htok : splitWs (trimChars raw) = ['v'] :: xs)
    (hne : trimChars raw ≠ []) (hhash : (trimChars raw).head? ≠ some '#') :
    processLine m k raw = handleV m k xs := by
  simp only [processLine]
  rw [if_neg (by push_neg; exact ⟨hne, hhash⟩), htok]
  simp

/-- C10: a face-vertex token with more than three slash-separated components
is not rejected for having them: `parse_face_vertex` reads only the first
three components, so its result equals that of any token made of exactly the
same first three components. -/
theorem parse_face_vertex_extra_components (t t2 : List Char) (vlen vtlen vnlen : ℕ)
    (hlen : 3 ≤ (splitOnChar '/' t).length)
    (hlen2 : (splitOnChar '/' t2).length = 3)
    (hsame : (splitOnChar '/' t).take 3 = (splitOnChar '/' t2).take 3) :
    parse_face_vertex t vlen vtlen vnlen = parse_face_vertex t2 vlen vtlen vnlen := by
  have e0 : (splitOnChar '/' t).get? 0 = (splitOnChar '/' t2).get? 0 := by
    rw [List.get?_eq_getElem?, List.get?_eq_getElem?,
      ← @List.getElem?_take_of_lt _ (splitOnChar '/' t) 3 0 (show 0 < 3 by omega), hsame,
      List.getElem?_take_of_lt (show 0 < 3 by omega)]
  have egd : ∀ k, k < 3 → (splitOnChar '/' t).getD k [] = (splitOnChar '/' t2).getD k [] := by
    intro k hk
    rw [List.getD_eq_getElem?_getD, List.getD_eq_getElem?_getD,
      ← @List.getElem?_take_of_lt _ (splitOnChar '/' t) 3 k hk, hsame,
      List.getElem?_take_of_lt hk]
  have hA2 : 1 + 1 ≤ (splitOnChar '/' t).length := by omega
  have hB2 : 1 + 1 ≤ (splitOnChar '/' t2).length := by omega
  have hA3 : 2 + 1 ≤ (splitOnChar '/' t).length := by omega
  have hB3 : 2 + 1 ≤ (splitOnChar '/' t2).length := by omega
  simp only [parse_face_vertex, slashComp, e0, egd 1 (by omega), egd 2 (by omega),
    hA2, hB2, hA3, hB3, true_and]

/-- C10 witness: `1/2/3/4` parses the same as `1/2/3`, and is accepted. -/
theorem parse_face_vertex_extra_components_witness :
    parse_face_vertex (String.toList "1/2/3/4") 5 5 5 =
      parse_face_vertex (String.toList "1/2/3") 5 5 5 ∧
    parse_face_vertex (String.toList "1/2/3/4") 5 5 5 = some (0, some 1, some 2) := by
  constructor
  · exact parse_face_vertex_extra_components (String.toList "1/2/3/4") (String.toList "1/2/3")
      5 5 5 (by decide) (by decide) (by decide)
  · decide

/-- C8: on a `v` line (in any surrounding file context whose prefix loads
fine), fewer than three fields or a non-numeric field among the first three
makes `load_obj` fail with an error carrying the 1-based line number of that
line, the failing coordinate being reported in source order; with three
parsed values `x`, `y`, `z` the line appends exactly `Vec3(x, y, z)` to
`positions`. -/
theorem load_obj_v_line (pre suf : List (List Char)) (m : Mesh) (raw : List Char)
    (xs : List (List Char))
    (hpre : loadLoop Mesh.new 0 pre = .ok m)
    (htok : splitWs (trimChars raw) = ['v'] :: xs)
    (hne : trimChars raw ≠ []) (hhash : (trimChars raw).head? ≠ some '#') :
    (xs.length < 3 → load_obj (pre ++ raw :: suf) = .error (.vTooFew (pre.length + 1))) ∧
    (3 ≤ xs.length → parseF32 (xs.getD 0 []) = none →
      load_obj (pre ++ raw :: suf) = .error (.vBadNum (pre.length + 1) 0)) ∧
    (3 ≤ xs.length → ∀ x, parseF32 (xs.getD 0 []) = some x →
      parseF32 (xs.getD 1 []) = none →
      load_obj (pre ++ raw :: suf) = .error (.vBadNum (pre.length + 1) 1)) ∧
    (3 ≤ xs.length → ∀ x y, parseF32 (xs.getD 0 []) = some x →
      parseF32 (xs.getD 1 []) = some y → parseF32 (xs.getD 2 []) = none →
      load_obj (pre ++ raw :: suf) = .error (.vBadNum (pre.length + 1) 2)) ∧
    (∀ x y z, 3 ≤ xs.length → parseF32 (xs.getD 0 []) = some x →
      parseF32 (xs.getD 1 []) = some y → parseF32 (xs.getD 2 []) = some z →
      processLine m pre.length raw = .ok { m with positions := m.positions ++ [⟨x, y, z⟩] }) := by
  have hpl : processLine m pre.length raw = handleV m pre.length xs :=
    processLine_v m pre.length raw xs htok hne hhash
  have hload : load_obj (pre ++ raw :: suf) =
      match handleV m pre.length xs with
      | .error e => .error e
      | .ok m2 => loadLoop m2 (pre.length + 1) suf := by
    show loadLoop Mesh.new 0 (pre ++ raw :: suf) = _
    rw [loadLoop_append_ok hpre]
    simp only [loadLoop, Nat.zero_add, hpl]
  refine ⟨?_, ?_, ?_, ?_, ?_⟩
  · intro hlt
    have hh : handleV m pre.length xs = .error (.vTooFew (pre.length + 1)) := by
      simp only [handleV]
      rw [if_pos hlt]
    rw [hload, hh]
  · intro hge hx
    have hh : handleV m pre.length xs = .error (.vBadNum (pre.length + 1) 0) := by
      simp only [handleV]
      rw [if_neg (by omega), hx]
    rw [hload, hh]
  · intro hge x hx hy
    have hh : handleV m pre.length xs = .error (.vBadNum (pre.length + 1) 1) := by
      simp only [handleV]
      rw [if_neg (by omega), hx, hy]
    rw [hload, hh]
  · intro hge x y hx hy hz
    have hh : handleV m pre.length xs = .error (.vBadNum (pre.length + 1) 2) := by
      simp only [handleV]
      rw [if_neg (by omega), hx, hy, hz]
    rw [hload, hh]
  · intro x y z hge hx hy hz
    rw [hpl]
    simp only [handleV]
    rw [if_neg (by omega), hx, hy, hz]

/-- C8 witness: `v 1 2` fails with the 1-based line number, and `v 1 2 3`
appends the parsed vector. -/
theorem load_obj_v_line_witness :
    load_obj [String.toList "v 1 2"] = .error (.vTooFew 1) ∧
    processLine Mesh.new 0 (String.toList "v 1 2 3") =
      .ok { Mesh.new with positions := Mesh.new.positions ++
        [⟨(parseF32 (String.toList "1")).getD 0, (parseF32 (String.toList "2")).getD 0,
          (parseF32 (String.toList "3")).getD 0⟩] } := by
  constructor
  · exact (load_obj_v_line [] [] Mesh.new (String.toList "v 1 2")
      [String.toList "1", String.toList "2"] rfl rfl (by decide) (by decide)).1 (by decide)
  · exact (load_obj_v_line [] [] Mesh.new (String.toList "v 1 2 3")
      [String.toList "1", String.toList "2", String.toList "3"] rfl rfl (by decide)
      (by decide)).2.2.2.2 _ _ _ (by decide) rfl rfl rfl

/-- Specialization of the fold characterization to the rasterizer's
inner-loop step. -/
theorem foldl_raster_getPixel (x0 y0 x1 y1 x2 y2 : ℚ) (r g b : ℕ) (px py : ℕ)
    (L : List (ℤ × ℤ)) (fb : Framebuffer)
    (hlen : fb.data.length = fb.w * fb.h * 3) (hw : px < fb.w) (hh : py < fb.h) :
    (L.foldl (fun acc p =>
        if inside_tri x0 y0 x1 y1 x2 y2 ((p.1 : ℚ) + 1 / 2) ((p.2 : ℚ) + 1 / 2)
        then acc.put_pixel p.1 p.2 r g b else acc) fb).getPixel px py
      = if ((px : ℤ), (py : ℤ)) ∈ L ∧
           inside_tri x0 y0 x1 y1 x2 y2 (((px : ℤ) : ℚ) + 1 / 2) (((py : ℤ) : ℚ) + 1 / 2) = true
        then (r, g, b) else fb.getPixel px py :=
  foldl_cond_put_getPixel
    (fun p => inside_tri x0 y0 x1 y1 x2 y2 ((p.1 : ℚ) + 1 / 2) ((p.2 : ℚ) + 1 / 2))
    r g b px py L fb hlen hw hh

/-- C6: for a triangle with nonzero signed area, a pixel of the clipped
bounding box holds the triangle's color after `fill_triangle` exactly when
the three edge functions at its center `(x+½, y+½)` all share the sign of
the total area (zero edge values counting as inside); otherwise it is
unchanged. -/
theorem fill_triangle_coverage (fb : Framebuffer) (x0 y0 x1 y1 x2 y2 : ℚ) (r g b : ℕ)
    (x y : ℤ)
    (hlen : fb.data.length = fb.w * fb.h * 3)
    (harea : edge x0 y0 x1 y1 x2 y2 ≠ 0)
    (hx1 : max ⌊min (min x0 x1) x2⌋ 0 ≤ x)
    (hx2 : x ≤ min ⌈max (max x0 x1) x2⌉ ((fb.w : ℤ) - 1))
    (hy1 : max ⌊min (min y0 y1) y2⌋ 0 ≤ y)
    (hy2 : y ≤ min ⌈max (max y0 y1) y2⌉ ((fb.h : ℤ) - 1)) :
    (fill_triangle fb x0 y0 x1 y1 x2 y2 r g b).getPixel x.toNat y.toNat =
      if (0 ≤ edge x1 y1 x2 y2 ((x : ℚ) + 1 / 2) ((y : ℚ) + 1 / 2) ∧
          0 ≤ edge x2 y2 x0 y0 ((x : ℚ) + 1 / 2) ((y : ℚ) + 1 / 2) ∧
          0 ≤ edge x0 y0 x1 y1 ((x : ℚ) + 1 / 2) ((y : ℚ) + 1 / 2) ∧
          0 < edge x0 y0 x1 y1 x2 y2) ∨
         (edge x1 y1 x2 y2 ((x : ℚ) + 1 / 2) ((y : ℚ) + 1 / 2) ≤ 0 ∧
          edge x2 y2 x0 y0 ((x : ℚ) + 1 / 2) ((y : ℚ) + 1 / 2) ≤ 0 ∧
          edge x0 y0 x1 y1 ((x : ℚ) + 1 / 2) ((y : ℚ) + 1 / 2) ≤ 0 ∧
          edge x0 y0 x1 y1 x2 y2 < 0)
      then (r, g, b)
      else fb.getPixel x.toNat y.toNat := by
  have hx0 : 0 ≤ x := le_trans (le_max_right _ 0) hx1
  have hy0 : 0 ≤ y := le_trans (le_max_right _ 0) hy1
  have hxw : x < (fb.w : ℤ) := by
    have h2 := le_trans hx2 (min_le_right (⌈max (max x0 x1) x2⌉) ((fb.w : ℤ) - 1))
    omega
  have hyh : y < (fb.h : ℤ) := by
    have h2 := le_trans hy2 (min_le_right (⌈max (max y0 y1) y2⌉) ((fb.h : ℤ) - 1))
    omega
  have hpxw : x.toNat < fb.w := by omega
  have hpyh : y.toNat < fb.h := by omega
  simp only [fill_triangle]
  rw [if_neg harea]
  rw [foldl_raster_getPixel x0 y0 x1 y1 x2 y2 r g b x.toNat y.toNat _ fb hlen hpxw hpyh]
  have hcx : ((x.toNat : ℤ)) = x := by omega
  have hcy : ((y.toNat : ℤ)) = y := by omega
  rw [hcx, hcy]
  have hmem : (x, y) ∈ pixelsInBox (max ⌊min (min x0 x1) x2⌋ 0)
      (min ⌈max (max x0 x1) x2⌉ ((fb.w : ℤ) - 1)) (max ⌊min (min y0 y1) y2⌋ 0)
      (min ⌈max (max y0 y1) y2⌉ ((fb.h : ℤ) - 1)) :=
    pixelsInBox_mem.mpr ⟨⟨hx1, hx2⟩, hy1, hy2⟩
  have hins : inside_tri x0 y0 x1 y1 x2 y2 ((x : ℚ) + 1 / 2) ((y : ℚ) + 1 / 2) = true ↔
      ((0 ≤ edge x1 y1 x2 y2 ((x : ℚ) + 1 / 2) ((y : ℚ) + 1 / 2) ∧
        0 ≤ edge x2 y2 x0 y0 ((x : ℚ) + 1 / 2) ((y : ℚ) + 1 / 2) ∧
        0 ≤ edge x0 y0 x1 y1 ((x : ℚ) + 1 / 2) ((y : ℚ) + 1 / 2) ∧
        0 < edge x0 y0 x1 y1 x2 y2) ∨
       (edge x1 y1 x2 y2 ((x : ℚ) + 1 / 2) ((y : ℚ) + 1 / 2) ≤ 0 ∧
        edge x2 y2 x0 y0 ((x : ℚ) + 1 / 2) ((y : ℚ) + 1 / 2) ≤ 0 ∧
        edge x0 y0 x1 y1 ((x : ℚ) + 1 / 2) ((y : ℚ) + 1 / 2) ≤ 0 ∧
        edge x0 y0 x1 y1 x2 y2 < 0)) := by
    simp only [inside_tri, decide_eq_true_eq]
  by_cases hc : (0 ≤ edge x1 y1 x2 y2 ((x : ℚ) + 1 / 2) ((y : ℚ) + 1 / 2) ∧
      0 ≤ edge x2 y2 x0 y0 ((x : ℚ) + 1 / 2) ((y : ℚ) + 1 / 2) ∧
      0 ≤ edge x0 y0 x1 y1 ((x : ℚ) + 1 / 2) ((y : ℚ) + 1 / 2) ∧
      0 < edge x0 y0 x1 y1 x2 y2) ∨
     (edge x1 y1 x2 y2 ((x : ℚ) + 1 / 2) ((y : ℚ) + 1 / 2) ≤ 0 ∧
      edge x2 y2 x0 y0 ((x : ℚ) + 1 / 2) ((y : ℚ) + 1 / 2) ≤ 0 ∧
      edge x0 y0 x1 y1 ((x : ℚ) + 1 / 2) ((y : ℚ) + 1 / 2) ≤ 0 ∧
      edge x0 y0 x1 y1 x2 y2 < 0)
  · rw [if_pos ⟨hmem, hins.mpr hc⟩, if_pos hc]
  · rw [if_neg (fun hand => hc (hins.mp hand.2)), if_neg hc]

/-- C6 witness: on a 4×4 buffer, the triangle (0,0), (4,0), (0,4) covers the
center of pixel (1,1), which therefore holds the triangle color. -/
theorem fill_triangle_coverage_witness :
    (fill_triangle fbSmall 0 0 4 0 0 4 9 9 9).getPixel 1 1 = (9, 9, 9) := by
  have h := fill_triangle_coverage fbSmall 0 0 4 0 0 4 9 9 9 1 1 (by decide)
    (by norm_num [edge]) (by norm_num) (by norm_num [fbSmall, Framebuffer.new])
    (by norm_num) (by norm_num [fbSmall, Framebuffer.new])
  norm_num [edge] at h
  exact h
